import Mathlib

/-!
Verification of the mindmeld dispatch core.

The dialogue-manager component (`mmworkbench/components/dialogue.py`) is exercised by
`tests/components/test_dialogue.py`; the module itself is not part of the excerpt, so the
registry, matcher, middleware pipeline and dispatcher below are modelled from the
specification, with the calling conventions fixed by the tests (handlers take
`(context, response)`; middleware take `(context, response, handler)` and continue the
chain by calling `handler(ctx, responder)` with both arguments, mutations threaded
through).  Mutable Python dicts become explicit state passing on `Context × Response`.
The MEMM tagger (`mmworkbench/models/taggers/memm.py`) is embedded from the source, with
the external sklearn classifier and the feature extractor abstracted as parameters.
-/

namespace MindMeld

/-- An entity recognized in a request: a type string plus an opaque payload. -/
structure Entity where
  type : String
  payload : String
deriving DecidableEq

/-- Per-turn input context: domain, intent, recognized entities, and a mutable
bag middleware may use to pass derived values forward (string key-value pairs). -/
structure Context where
  domain : String
  intent : String
  entities : List Entity
  bag : List (String × String)
deriving DecidableEq

/-- Per-turn mutable output accumulator; `dialogue_state` records the selected rule. -/
structure Response where
  dialogue_state : Option String
  fields : List (String × String)
deriving DecidableEq

/-- Modelled from the spec: a rule's condition spec — optional domain, intent,
single-entity requirement and multi-entity requirement. -/
structure ConditionSpec where
  domain : Option String
  intent : Option String
  has_entity : Option String
  has_entities : Option (List String)
deriving DecidableEq

/-- The condition spec with no conditions (the universal/default rule). -/
def emptyCond : ConditionSpec := ⟨none, none, none, none⟩

/-- Modelled from the spec: specificity of a condition spec — 1 if domain is set,
+1 if intent is set, +2 if has_entity is set, +2·|has_entities| if has_entities is set. -/
def specificity (c : ConditionSpec) : Nat :=
  (if c.domain.isSome then 1 else 0) +
  (if c.intent.isSome then 1 else 0) +
  (if c.has_entity.isSome then 2 else 0) +
  (match c.has_entities with
   | none => 0
   | some ts => 2 * ts.length)

/-- The state a handler or middleware acts on: the (context, response) pair. -/
abbrev MWState : Type := Context × Response

/-- A middleware: receives the current state and a continuation; per the tests it
continues the chain by applying the continuation to a (possibly mutated) state. -/
def Middleware (σ : Type) : Type := σ → (σ → σ) → σ

/-- Modelled from the spec: a registered dialogue rule — unique name, condition spec,
handler, specificity (computed once at registration), registration index. -/
structure Rule where
  name : String
  conds : ConditionSpec
  handler : MWState → MWState
  specificity : Nat
  index : Nat

/-- Modelled from the spec: the dispatcher facade, owning its rule registry and
middleware pipeline (no global shared state). -/
structure DialogueManager where
  rules : List Rule
  middleware : List (Middleware MWState)

/-- The error taxonomy of registration and dispatch. -/
inductive DialogueError where
  | duplicateName
  | invalidConditionSpec
  | noMatch
  | unknownName
deriving DecidableEq

/-- Types of the entities present in a context. -/
def entityTypes (ctx : Context) : List String := ctx.entities.map (fun e => e.type)

/-- Modelled from the spec: a condition spec holds of a context when every set
condition is satisfied — domain/intent equal, required entity types present. -/
def condMatches (c : ConditionSpec) (ctx : Context) : Bool :=
  (match c.domain with
   | none => true
   | some d => d == ctx.domain) &&
  (match c.intent with
   | none => true
   | some i => i == ctx.intent) &&
  (match c.has_entity with
   | none => true
   | some t => (entityTypes ctx).contains t) &&
  (match c.has_entities with
   | none => true
   | some ts => ts.all (fun t => (entityTypes ctx).contains t))

/-- Scan a candidate list for the rule of maximal specificity, keeping the earlier
rule on ties (candidates are scanned in registration order). -/
def pickBest : Rule → List Rule → Rule
  | c, [] => c
  | c, r :: rs => pickBest (if c.specificity < r.specificity then r else c) rs

/-- Modelled from the spec: `Matcher.select` — among rules whose conditions all hold,
pick the one with maximal specificity, earliest-registered on ties; error when none. -/
def select (rules : List Rule) (ctx : Context) : Except DialogueError Rule :=
  match rules.filter (fun r => condMatches r.conds ctx) with
  | [] => Except.error DialogueError.noMatch
  | c :: cs => Except.ok (pickBest c cs)

/-- Modelled from the spec: `Matcher.lookup` — direct retrieval by name, bypassing
condition evaluation. -/
def lookup (rules : List Rule) (name : String) : Except DialogueError Rule :=
  match rules.find? (fun r => r.name == name) with
  | some r => Except.ok r
  | none => Except.error DialogueError.unknownName

/-- Modelled from the spec: `add_dialogue_rule` — rejects a duplicate name and a spec
with both `has_entity` and `has_entities`; otherwise appends the rule with its
precomputed specificity and the next registration index. -/
def addDialogueRule (dm : DialogueManager) (name : String) (hdl : MWState → MWState)
    (conds : ConditionSpec) : Except DialogueError DialogueManager :=
  if dm.rules.any (fun r => r.name == name) then
    Except.error DialogueError.duplicateName
  else if conds.has_entity.isSome && conds.has_entities.isSome then
    Except.error DialogueError.invalidConditionSpec
  else
    Except.ok ⟨dm.rules ++ [⟨name, conds, hdl, specificity conds, dm.rules.length⟩],
      dm.middleware⟩

/-- Modelled from the spec: `add_middleware` — appends to the pipeline, preserving
registration order. -/
def addMiddleware (dm : DialogueManager) (m : Middleware MWState) : DialogueManager :=
  ⟨dm.rules, dm.middleware ++ [m]⟩

/-- Modelled from the spec: the pipeline composition — the first-registered middleware
is entered first and outermost; the continuation handed to it runs the remainder of
the chain (later middleware, then the terminal handler). -/
def invoke {σ : Type} : List (Middleware σ) → σ → (σ → σ) → σ
  | [], s, h => h s
  | m :: ms, s, h => m s (fun s' => invoke ms s' h)

/-- Set the response's `dialogue_state` field. -/
def setDialogueState (resp : Response) (n : String) : Response := ⟨some n, resp.fields⟩

/-- Modelled from the spec: `apply_handler` — resolve the rule by `lookup` when a
target dialogue state is given, else by `select`; set `dialogue_state` to the rule's
name; run the pipeline with the rule's handler as terminal stage; return the response. -/
def applyHandler (dm : DialogueManager) (ctx : Context) (resp : Response)
    (target : Option String) : Except DialogueError Response :=
  match (match target with
         | some n => lookup dm.rules n
         | none => select dm.rules ctx) with
  | Except.error e => Except.error e
  | Except.ok r =>
    Except.ok (invoke dm.middleware (ctx, setDialogueState resp r.name) r.handler).2

/-- A dialogue manager is well formed when each stored rule's registration index is its
position and its stored specificity is the specificity of its condition spec — the
invariant `addDialogueRule` maintains. -/
def WellFormed (dm : DialogueManager) : Prop :=
  ∀ i (hi : i < dm.rules.length),
    (dm.rules.get ⟨i, hi⟩).index = i ∧
    (dm.rules.get ⟨i, hi⟩).specificity = specificity (dm.rules.get ⟨i, hi⟩).conds

/-- A state transformer that leaves the response's `dialogue_state` unchanged. -/
def PreservesDS (f : MWState → MWState) : Prop :=
  ∀ s : MWState, ((f s).2).dialogue_state = (s.2).dialogue_state

/-- A middleware that leaves `dialogue_state` unchanged whenever its continuation does. -/
def MwPreservesDS (m : Middleware MWState) : Prop :=
  ∀ (s : MWState) (k : MWState → MWState), PreservesDS k →
    ((m s k).2).dialogue_state = (s.2).dialogue_state

/-- A middleware that mutates the state and then hands the mutated state to its
continuation, continuing the chain exactly once (the shape of the test middleware). -/
def liftMw {σ : Type} (f : σ → σ) : Middleware σ := fun s k => k (f s)

/-- A maximum-entropy Markov model, from `memm.py`; the sklearn classifier pipeline
(`preprocess_data` + `predict` + `class_encoder.inverse_transform`) is the abstract
`predict` field, the external `extract_sequence_features` helper the abstract
`extract_example_features` field, and storing into the features dict
(`features['prev_tag'] = prev_tag`) the abstract `set_prev_tag` field. -/
structure MemmModel (E F T : Type) where
  extract_example_features : E → List F
  set_prev_tag : F → T → F
  predict : F → T
  START_TAG : T

/-- The prediction loop of `_predict_example`: thread the previous predicted tag
through the feature segments, starting from `START_TAG`. -/
def memmLoop {E F T : Type} (M : MemmModel E F T) : List F → T → List T
  | [], _ => []
  | f :: fs, prev =>
    let t := M.predict (M.set_prev_tag f prev)
    t :: memmLoop M fs t

/-- `MemmModel._predict_example` from `memm.py`: extract the feature segments; return
`[]` when there are none; otherwise predict one tag per segment, each segment's
features augmented with the previous segment's predicted tag (`START_TAG` first). -/
def predict_example {E F T : Type} (M : MemmModel E F T) (ex : E) : List T :=
  let fbs := M.extract_example_features ex
  if fbs.length = 0 then [] else memmLoop M fbs M.START_TAG

/-- `MemmModel.process_and_predict` from `memm.py`: predict every example. -/
def process_and_predict {E F T : Type} (M : MemmModel E F T) (exs : List E) :
    List (List T) :=
  exs.map (fun ex => predict_example M ex)

/-- The tag feeding segment `i`: `START_TAG` for the first segment, else the tag
predicted for the preceding segment. -/
def prevTagAt {T : Type} (out : List T) (start : T) (i : Nat) : T :=
  if i = 0 then start else out.getD (i - 1) start

/-- The scanned accumulator never loses to the incoming rule, left component. -/
theorem ite_spec_left (c r : Rule) :
    c.specificity ≤ (if c.specificity < r.specificity then r else c).specificity := by
  by_cases hc : c.specificity < r.specificity
  · simpa [hc] using Nat.le_of_lt hc
  · simp [hc]

/-- The scanned accumulator never loses to the incoming rule, right component. -/
theorem ite_spec_right (c r : Rule) :
    r.specificity ≤ (if c.specificity < r.specificity then r else c).specificity := by
  by_cases hc : c.specificity < r.specificity
  · simp [hc]
  · simpa [hc] using Nat.le_of_not_lt hc

/-- The rule picked from a candidate list is one of its members. -/
theorem pickBest_mem (rs : List Rule) : ∀ c : Rule, pickBest c rs ∈ c :: rs := by
  induction rs with
  | nil => intro c; simp [pickBest]
  | cons r rs ih =>
    intro c
    simp only [pickBest]
    have h := ih (if c.specificity < r.specificity then r else c)
    rcases List.mem_cons.mp h with h | h
    · rw [h]
      by_cases hc : c.specificity < r.specificity
      · simp [hc]
      · simp [hc]
    · exact List.mem_cons.mpr (Or.inr (List.mem_cons.mpr (Or.inr h)))

/-- The picked rule attains the maximal specificity of the candidate list. -/
theorem pickBest_le (rs : List Rule) : ∀ c : Rule, ∀ x ∈ c :: rs,
    x.specificity ≤ (pickBest c rs).specificity := by
  induction rs with
  | nil =>
    intro c x hx
    rcases List.mem_cons.mp hx with rfl | h
    · simp [pickBest]
    · simp at h
  | cons r rs ih =>
    intro c x hx
    simp only [pickBest]
    rcases List.mem_cons.mp hx with rfl | hx
    · exact Nat.le_trans (ite_spec_left x r) (ih _ _ (List.mem_cons_self _ _))
    · rcases List.mem_cons.mp hx with rfl | hx
      · exact Nat.le_trans (ite_spec_right c x) (ih _ _ (List.mem_cons_self _ _))
      · exact ih _ _ (List.mem_cons.mpr (Or.inr hx))

/-- Among candidates of maximal specificity, the picked rule has the least
registration index, provided indices increase along the candidate list. -/
theorem pickBest_first (rs : List Rule) : ∀ c : Rule,
    (c :: rs).Pairwise (fun a b => a.index < b.index) →
    ∀ x ∈ c :: rs, x.specificity = (pickBest c rs).specificity →
    (pickBest c rs).index ≤ x.index := by
  induction rs with
  | nil =>
    intro c _ x hx _
    rcases List.mem_cons.mp hx with rfl | h
    · simp [pickBest]
    · simp at h
  | cons r rs ih =>
    intro c hp x hx hs
    rw [List.pairwise_cons] at hp
    simp only [pickBest] at hs ⊢
    by_cases hc : c.specificity < r.specificity
    · rw [if_pos hc] at hs ⊢
      rcases List.mem_cons.mp hx with rfl | hx
      · exfalso
        have h1 : r.specificity ≤ (pickBest r rs).specificity :=
          pickBest_le rs r r (List.mem_cons_self _ _)
        rw [← hs] at h1
        exact Nat.lt_irrefl _ (Nat.lt_of_lt_of_le hc h1)
      · exact ih r hp.2 x hx hs
    · rw [if_neg hc] at hs ⊢
      have hp' : (c :: rs).Pairwise (fun a b => a.index < b.index) :=
        List.pairwise_cons.mpr
          ⟨fun y hy => hp.1 y (List.mem_cons.mpr (Or.inr hy)),
           (List.pairwise_cons.mp hp.2).2⟩
      rcases List.mem_cons.mp hx with rfl | hx
      · exact ih _ hp' _ (List.mem_cons_self _ _) hs
      · rcases List.mem_cons.mp hx with rfl | hx
        · have hcle : x.specificity ≤ c.specificity := Nat.le_of_not_lt hc
          have hcres : c.specificity ≤ (pickBest c rs).specificity :=
            pickBest_le rs c c (List.mem_cons_self _ _)
          have hceq : c.specificity = (pickBest c rs).specificity :=
            Nat.le_antisymm hcres (hs ▸ hcle)
          have h1 := ih c hp' c (List.mem_cons_self _ _) hceq
          exact Nat.le_trans h1 (Nat.le_of_lt (hp.1 x (List.mem_cons_self _ _)))
        · exact ih c hp' x (List.mem_cons.mpr (Or.inr hx)) hs

/-- A successful `select` returns a member rule whose conditions hold and whose stored
specificity is maximal among the condition-satisfying rules. -/
theorem select_ok (rules : List Rule) (ctx : Context) (r : Rule)
    (h : select rules ctx = Except.ok r) :
    r ∈ rules ∧ condMatches r.conds ctx = true ∧
    (∀ x ∈ rules, condMatches x.conds ctx = true → x.specificity ≤ r.specificity) := by
  rw [select] at h
  cases hfl : rules.filter (fun x => condMatches x.conds ctx) with
  | nil => rw [hfl] at h; exact absurd h (by simp)
  | cons c cs =>
    rw [hfl] at h
    simp only [Except.ok.injEq] at h
    have hmem : r ∈ rules.filter (fun x => condMatches x.conds ctx) := by
      rw [hfl, ← h]; exact pickBest_mem cs c
    have hmem' := List.mem_filter.mp hmem
    refine ⟨hmem'.1, hmem'.2, ?_⟩
    intro x hx hmx
    have hxf : x ∈ rules.filter (fun y => condMatches y.conds ctx) :=
      List.mem_filter.mpr ⟨hx, hmx⟩
    rw [hfl] at hxf
    rw [← h]
    exact pickBest_le cs c x hxf

/-- A successful `select` returns, among condition-satisfying rules of equal stored
specificity, the one with the least registration index — when indices increase
along the registry. -/
theorem select_ok_first (rules : List Rule) (ctx : Context) (r : Rule)
    (hp : rules.Pairwise (fun a b => a.index < b.index))
    (h : select rules ctx = Except.ok r) :
    ∀ x ∈ rules, condMatches x.conds ctx = true →
      x.specificity = r.specificity → r.index ≤ x.index := by
  rw [select] at h
  cases hfl : rules.filter (fun x => condMatches x.conds ctx) with
  | nil => rw [hfl] at h; exact absurd h (by simp)
  | cons c cs =>
    rw [hfl] at h
    simp only [Except.ok.injEq] at h
    intro x hx hmx hsx
    have hpf : (rules.filter (fun y => condMatches y.conds ctx)).Pairwise
        (fun a b => a.index < b.index) :=
      List.Pairwise.sublist (List.filter_sublist rules) hp
    rw [hfl] at hpf
    have hxf : x ∈ rules.filter (fun y => condMatches y.conds ctx) :=
      List.mem_filter.mpr ⟨hx, hmx⟩
    rw [hfl] at hxf
    rw [← h]
    exact pickBest_first cs c hpf x hxf (by rw [hsx, ← h])

/-- In a well-formed manager each stored specificity equals the specificity of the
rule's own condition spec. -/
theorem wf_spec_eq (dm : DialogueManager) (hwf : WellFormed dm) :
    ∀ x ∈ dm.rules, x.specificity = specificity x.conds := by
  intro x hx
  rcases List.mem_iff_get.mp hx with ⟨i, rfl⟩
  exact (hwf i.1 i.2).2

/-- In a well-formed manager registration indices strictly increase along the registry. -/
theorem wf_pairwise (dm : DialogueManager) (hwf : WellFormed dm) :
    dm.rules.Pairwise (fun a b => a.index < b.index) := by
  rw [List.pairwise_iff_get]
  intro i j hij
  have hi := (hwf i.1 i.2).1
  have hj := (hwf j.1 j.2).1
  rw [hi, hj]
  exact hij

/-- Running the pipeline leaves `dialogue_state` unchanged when every middleware and
the terminal handler do. -/
theorem invoke_preserves_ds : ∀ (ms : List (Middleware MWState)) (h : MWState → MWState),
    (∀ m ∈ ms, MwPreservesDS m) → PreservesDS h →
    PreservesDS (fun s => invoke ms s h) := by
  intro ms
  induction ms with
  | nil => intro h _ hh; exact hh
  | cons m ms ih =>
    intro h hms hh s
    exact hms m (List.mem_cons_self m ms) s _
      (ih h (fun x hx => hms x (List.mem_cons.mpr (Or.inr hx))) hh)

/-- A middleware whose result does not depend on its continuation cuts the chain: the
stages after it (and the terminal handler) are irrelevant to the pipeline's result. -/
theorem invoke_drop_tail {σ : Type} (m : Middleware σ)
    (hm : ∀ s k k', m s k = m s k') :
    ∀ (pre post post' : List (Middleware σ)) (h h' : σ → σ) (s : σ),
      invoke (pre ++ m :: post) s h = invoke (pre ++ m :: post') s h' := by
  intro pre
  induction pre with
  | nil =>
    intro post post' h h' s
    exact hm s _ _
  | cons p pre ih =>
    intro post post' h h' s
    show p s (fun s' => invoke (pre ++ m :: post) s' h) =
      p s (fun s' => invoke (pre ++ m :: post') s' h')
    rw [funext (fun s' => ih post post' h h' s')]

/-- The length of the MEMM prediction loop's output equals its input length. -/
theorem memmLoop_length {E F T : Type} (M : MemmModel E F T) :
    ∀ (fs : List F) (prev : T), (memmLoop M fs prev).length = fs.length := by
  intro fs
  induction fs with
  | nil => intro prev; rfl
  | cons f fs ih => intro prev; simp only [memmLoop, List.length_cons, ih]

/-- Reading the predecessor out of a cons-extended output list, in bounds. -/
theorem getD_cons_prevTag {T : Type} (t : T) (rest : List T) (d : T) :
    ∀ j, j < rest.length → (t :: rest).getD j d = prevTagAt rest t j := by
  intro j hj
  cases j with
  | zero => rfl
  | succ k =>
    have hk : k < rest.length := Nat.lt_of_succ_lt hj
    show rest.getD k d = rest.getD k t
    rw [List.getD_eq_getElem rest d hk, List.getD_eq_getElem rest t hk]

/-- Each tag the MEMM loop emits is the classifier's output on the corresponding
segment augmented with the preceding predicted tag. -/
theorem memmLoop_get {E F T : Type} (M : MemmModel E F T) :
    ∀ (fs : List F) (prev : T) (i : Nat) (hi : i < fs.length),
      (memmLoop M fs prev).get? i =
        some (M.predict (M.set_prev_tag (fs.get ⟨i, hi⟩)
          (prevTagAt (memmLoop M fs prev) prev i))) := by
  intro fs
  induction fs with
  | nil => intro prev i hi; simp at hi
  | cons f fs ih =>
    intro prev i hi
    cases i with
    | zero => rfl
    | succ j =>
      have hj : j < fs.length := Nat.lt_of_succ_lt_succ hi
      show (memmLoop M fs (M.predict (M.set_prev_tag f prev))).get? j =
        some (M.predict (M.set_prev_tag (fs.get ⟨j, hj⟩)
          (prevTagAt (M.predict (M.set_prev_tag f prev) ::
            memmLoop M fs (M.predict (M.set_prev_tag f prev))) prev (j + 1))))
      have h2 : prevTagAt (M.predict (M.set_prev_tag f prev) ::
          memmLoop M fs (M.predict (M.set_prev_tag f prev))) prev (j + 1) =
          prevTagAt (memmLoop M fs (M.predict (M.set_prev_tag f prev)))
            (M.predict (M.set_prev_tag f prev)) j := by
        show (M.predict (M.set_prev_tag f prev) ::
          memmLoop M fs (M.predict (M.set_prev_tag f prev))).getD j prev = _
        exact getD_cons_prevTag _ _ prev j (by rw [memmLoop_length]; exact hj)
      rw [h2]
      exact ih (M.predict (M.set_prev_tag f prev)) j hj

/-- C1: for every context and registered rules, apply_handler without a
target_dialogue_state resolves its rule through select, which returns a registered rule
whose conditions all hold of the context and whose specificity is maximal among the
condition-satisfying rules, specificity being 1 if domain is set, +1 if intent is set,
+2 if has_entity is set, +2 times the size of has_entities if has_entities is set. -/
theorem claim1_select_max_specificity (dm : DialogueManager) (ctx : Context)
    (resp : Response) (r : Rule) (hwf : WellFormed dm)
    (hsel : select dm.rules ctx = Except.ok r) :
    applyHandler dm ctx resp none =
      Except.ok (invoke dm.middleware (ctx, setDialogueState resp r.name) r.handler).2 ∧
    r ∈ dm.rules ∧ condMatches r.conds ctx = true ∧
    (∀ x ∈ dm.rules, condMatches x.conds ctx = true →
      specificity x.conds ≤ specificity r.conds) ∧
    specificity r.conds =
      (if (r.conds).domain.isSome then 1 else 0) +
      (if (r.conds).intent.isSome then 1 else 0) +
      (if (r.conds).has_entity.isSome then 2 else 0) +
      (match (r.conds).has_entities with
       | none => 0
       | some ts => 2 * ts.length) := by
  obtain ⟨hm, hc, hmax⟩ := select_ok dm.rules ctx r hsel
  refine ⟨?_, hm, hc, ?_, rfl⟩
  · simp only [applyHandler, hsel]
  · intro x hx hmx
    rw [← wf_spec_eq dm hwf x hx, ← wf_spec_eq dm hwf r hm]
    exact hmax x hx hmx

/-- C2: when several condition-satisfying rules share the maximal specificity,
selection returns the earliest-registered among them: any other satisfying rule of
equal specificity has an index no smaller than the selected rule's. -/
theorem claim2_tiebreak (dm : DialogueManager) (ctx : Context) (r : Rule)
    (hwf : WellFormed dm) (hsel : select dm.rules ctx = Except.ok r) :
    ∀ x ∈ dm.rules, condMatches x.conds ctx = true →
      specificity x.conds = specificity r.conds → r.index ≤ x.index := by
  intro x hx hmx hsx
  obtain ⟨hm, _, _⟩ := select_ok dm.rules ctx r hsel
  apply select_ok_first dm.rules ctx r (wf_pairwise dm hwf) hsel x hx hmx
  rw [wf_spec_eq dm hwf x hx, wf_spec_eq dm hwf r hm, hsx]

/-- C3: a rule with no conditions matches every context and has specificity 0, the
minimum possible; if such a rule is registered, dispatch never fails for lack of a
match, and it is selected when it is the only rule whose conditions hold. -/
theorem claim3_default_rule (dm : DialogueManager) (ctx : Context) (resp : Response)
    (r0 : Rule) (hmem : r0 ∈ dm.rules) (hconds : r0.conds = emptyCond) :
    (∀ ctx' : Context, condMatches emptyCond ctx' = true) ∧
    specificity emptyCond = 0 ∧
    (∀ c : ConditionSpec, specificity emptyCond ≤ specificity c) ∧
    (∃ resp', applyHandler dm ctx resp none = Except.ok resp') ∧
    ((∀ x ∈ dm.rules, condMatches x.conds ctx = true → x = r0) →
      select dm.rules ctx = Except.ok r0) := by
  have hall : ∀ ctx' : Context, condMatches emptyCond ctx' = true := fun ctx' => rfl
  have hne : r0 ∈ dm.rules.filter (fun x => condMatches x.conds ctx) :=
    List.mem_filter.mpr ⟨hmem, by rw [hconds]; exact hall ctx⟩
  refine ⟨hall, rfl, fun c => Nat.zero_le _, ?_, ?_⟩
  · cases hfl : dm.rules.filter (fun x => condMatches x.conds ctx) with
    | nil => rw [hfl] at hne; simp at hne
    | cons c cs =>
      exact ⟨(invoke dm.middleware (ctx, setDialogueState resp (pickBest c cs).name)
        (pickBest c cs).handler).2, by simp only [applyHandler, select, hfl]⟩
  · intro huniq
    cases hfl : dm.rules.filter (fun x => condMatches x.conds ctx) with
    | nil => rw [hfl] at hne; simp at hne
    | cons c cs =>
      rw [select, hfl]
      have hpk : pickBest c cs = r0 := by
        have hpm := pickBest_mem cs c
        rw [← hfl] at hpm
        have h2 := List.mem_filter.mp hpm
        exact huniq _ h2.1 h2.2
      exact congrArg Except.ok hpk

/-- C4: with a target_dialogue_state naming a registered rule, apply_handler resolves
the rule by name lookup (no condition evaluation or scoring), and — provided middleware
and the rule's handler leave dialogue_state alone — the returned response's
dialogue_state is that name, regardless of the context. -/
theorem claim4_target (dm : DialogueManager) (ctx : Context) (resp : Response)
    (n : String) (r : Rule) (hlk : lookup dm.rules n = Except.ok r)
    (hmw : ∀ m ∈ dm.middleware, MwPreservesDS m) (hh : PreservesDS r.handler) :
    r.name = n ∧
    applyHandler dm ctx resp (some n) =
      Except.ok (invoke dm.middleware (ctx, setDialogueState resp r.name) r.handler).2 ∧
    (∃ resp', applyHandler dm ctx resp (some n) = Except.ok resp' ∧
      resp'.dialogue_state = some n) := by
  have hname : r.name = n := by
    rw [lookup] at hlk
    cases hf : dm.rules.find? (fun x => x.name == n) with
    | none => rw [hf] at hlk; exact absurd hlk (by simp)
    | some x =>
      rw [hf] at hlk
      simp only [Except.ok.injEq] at hlk
      subst hlk
      have hpx := List.find?_some hf
      exact eq_of_beq hpx
  have happ : applyHandler dm ctx resp (some n) =
      Except.ok (invoke dm.middleware (ctx, setDialogueState resp r.name) r.handler).2 := by
    simp only [applyHandler, hlk]
  refine ⟨hname, happ, _, happ, ?_⟩
  have hpres := invoke_preserves_ds dm.middleware r.handler hmw hh
    (ctx, setDialogueState resp r.name)
  exact hpres.trans (by rw [setDialogueState, hname])

/-- C5: the pipeline runs middleware in registration order, the first-registered
entered first and outermost, so each later middleware and the terminal handler observe
the state mutations of the earlier ones; add_middleware appends in registration order. -/
theorem claim5_order {σ : Type} (fs : List (σ → σ)) (s : σ) (h : σ → σ)
    (dm : DialogueManager) (m : Middleware MWState) :
    invoke (fs.map liftMw) s h = h (fs.foldl (fun a f => f a) s) ∧
    (addMiddleware dm m).middleware = dm.middleware ++ [m] := by
  refine ⟨?_, rfl⟩
  induction fs generalizing s with
  | nil => rfl
  | cons f fs ih => exact ih (f s)

/-- C6 (amended): the continuation passed to each middleware takes the current
(context, response) state as argument; applying it to a state runs the remainder of
the chain — the later middleware and then the terminal handler — on that state. -/
theorem claim6_continuation {σ : Type} (m : Middleware σ)
    (ms : List (Middleware σ)) (f : σ → σ) (s : σ) (h : σ → σ) :
    invoke (m :: ms) s h = m s (fun s' => invoke ms s' h) ∧
    invoke (liftMw f :: ms) s h = invoke ms (f s) h ∧
    invoke ([] : List (Middleware σ)) s h = h s :=
  ⟨rfl, rfl, rfl⟩

/-- The middleware of test_middleware_single: set a flag in the context's bag, then
continue the chain by handing the mutated state to the continuation — the Python
`handler(ctx, responder)` call, which passes two arguments. -/
def mwSetFlag : Middleware MWState :=
  fun s k =>
    k (⟨(s.1).domain, (s.1).intent, (s.1).entities, (s.1).bag ++ [("flag", "true")]⟩, s.2)

/-- A concrete pre-dispatch state for the middleware scenarios. -/
def st0 : MWState := (⟨"domain", "middle", [], []⟩, ⟨none, []⟩)

/-- C6 counterexample: the remainder of the chain runs on the state the middleware
passes as an argument to its continuation — the terminal stage observes the flag the
middleware wrote, so the dispatch result differs from the untouched state.  The
continuation therefore consumes (context, response) arguments; it is not a
zero-argument callable invoked with no arguments. -/
theorem claim6_counterexample :
    invoke [mwSetFlag] st0 (fun s => s) ≠ st0 ∧
    invoke [mwSetFlag] st0 (fun s => s) =
      (⟨"domain", "middle", [], [("flag", "true")]⟩, ⟨none, []⟩) := by
  exact ⟨by decide, rfl⟩

/-- C7: a middleware whose result ignores its continuation short-circuits dispatch:
the later middleware and the terminal handler are irrelevant to the outcome, and —
when the stages that do run leave dialogue_state alone — apply_handler still returns a
response whose dialogue_state is the selected rule's name. -/
theorem claim7_short_circuit (m : Middleware MWState)
    (hm : ∀ s k k', m s k = m s k')
    (pre post : List (Middleware MWState))
    (hpre : ∀ mw ∈ pre, MwPreservesDS mw) (hmds : MwPreservesDS m)
    (dm : DialogueManager) (ctx : Context) (resp : Response) (r : Rule)
    (hsel : select dm.rules ctx = Except.ok r)
    (hmw : dm.middleware = pre ++ m :: post) :
    (∀ (post' : List (Middleware MWState)) (h h' : MWState → MWState) (s : MWState),
      invoke (pre ++ m :: post) s h = invoke (pre ++ m :: post') s h') ∧
    (∃ resp', applyHandler dm ctx resp none = Except.ok resp' ∧
      resp'.dialogue_state = some r.name) := by
  have hdrop := invoke_drop_tail m hm pre
  refine ⟨fun post' h h' s => hdrop post post' h h' s, ?_⟩
  have happ : applyHandler dm ctx resp none =
      Except.ok (invoke dm.middleware (ctx, setDialogueState resp r.name) r.handler).2 := by
    simp only [applyHandler, hsel]
  refine ⟨_, happ, ?_⟩
  have hcut : invoke dm.middleware (ctx, setDialogueState resp r.name) r.handler =
      invoke (pre ++ m :: []) (ctx, setDialogueState resp r.name) (fun x => x) := by
    rw [hmw]
    exact hdrop post [] r.handler (fun x => x) _
  rw [hcut]
  have hpres : PreservesDS (fun s => invoke (pre ++ m :: []) s (fun x => x)) := by
    apply invoke_preserves_ds
    · intro mw hmw'
      rcases List.mem_append.mp hmw' with h1 | h1
      · exact hpre mw h1
      · rcases List.mem_cons.mp h1 with rfl | h1
        · exact hmds
        · simp at h1
    · intro s; rfl
  exact hpres (ctx, setDialogueState resp r.name)

/-- C8: when no registered rule's conditions are all satisfied by the context,
dispatch without a target_dialogue_state surfaces the no-match error to the caller. -/
theorem claim8_no_match (dm : DialogueManager) (ctx : Context) (resp : Response)
    (h : ∀ x ∈ dm.rules, condMatches x.conds ctx = false) :
    applyHandler dm ctx resp none = Except.error DialogueError.noMatch := by
  have hfl : dm.rules.filter (fun x => condMatches x.conds ctx) = [] := by
    rw [List.filter_eq_nil_iff]
    intro x hx
    simp [h x hx]
  simp only [applyHandler, select, hfl]

/-- C9: add_dialogue_rule fails exactly when the name is already registered on the
same dispatcher or both has_entity and has_entities are supplied; otherwise it
succeeds. -/
theorem claim9_registration (dm : DialogueManager) (name : String)
    (hdl : MWState → MWState) (conds : ConditionSpec) :
    ((∃ e, addDialogueRule dm name hdl conds = Except.error e) ↔
      ((∃ x ∈ dm.rules, x.name = name) ∨
        (conds.has_entity.isSome = true ∧ conds.has_entities.isSome = true))) ∧
    (¬((∃ x ∈ dm.rules, x.name = name) ∨
        (conds.has_entity.isSome = true ∧ conds.has_entities.isSome = true)) →
      ∃ dm', addDialogueRule dm name hdl conds = Except.ok dm') := by
  have hdup : dm.rules.any (fun x => x.name == name) = true ↔
      ∃ x ∈ dm.rules, x.name = name := by
    rw [List.any_eq_true]
    constructor
    · rintro ⟨x, hx, hbx⟩; exact ⟨x, hx, eq_of_beq hbx⟩
    · rintro ⟨x, hx, hbx⟩; exact ⟨x, hx, beq_iff_eq.mpr hbx⟩
  by_cases h1 : dm.rules.any (fun x => x.name == name) = true
  · exact ⟨⟨fun _ => Or.inl (hdup.mp h1),
      fun _ => ⟨DialogueError.duplicateName, by rw [addDialogueRule, if_pos h1]⟩⟩,
      fun hn => absurd (Or.inl (hdup.mp h1)) hn⟩
  · by_cases h2 : (conds.has_entity.isSome && conds.has_entities.isSome) = true
    · refine ⟨⟨fun _ => Or.inr (by simpa [Bool.and_eq_true] using h2),
        fun _ => ⟨DialogueError.invalidConditionSpec,
          by rw [addDialogueRule, if_neg h1, if_pos h2]⟩⟩,
        fun hn => absurd (Or.inr (by simpa [Bool.and_eq_true] using h2)) hn⟩
    · refine ⟨⟨?_, ?_⟩, fun _ => ⟨_, by rw [addDialogueRule, if_neg h1, if_neg h2]⟩⟩
      · rintro ⟨e, he⟩
        rw [addDialogueRule, if_neg h1, if_neg h2] at he
        exact absurd he (by simp)
      · intro hor
        rcases hor with hd | hb
        · exact absurd (hdup.mpr hd) h1
        · exact absurd (by rw [Bool.and_eq_true]; exact ⟨hb.1, hb.2⟩) h2

/-- C10: _predict_example returns exactly one predicted tag per extracted feature
segment, in segment order; the first segment's features carry prev_tag = START_TAG
and each later segment's prev_tag is the tag predicted for the preceding segment; an
example with no feature segments yields the empty list. -/
theorem claim10_memm {E F T : Type} (M : MemmModel E F T) (ex : E) :
    (M.extract_example_features ex = [] → predict_example M ex = []) ∧
    (predict_example M ex).length = (M.extract_example_features ex).length ∧
    (∀ (i : Nat) (hi : i < (M.extract_example_features ex).length),
      (predict_example M ex).get? i =
        some (M.predict (M.set_prev_tag ((M.extract_example_features ex).get ⟨i, hi⟩)
          (prevTagAt (predict_example M ex) M.START_TAG i)))) := by
  refine ⟨?_, ?_, ?_⟩
  · intro h; simp [predict_example, h]
  · by_cases h : (M.extract_example_features ex).length = 0
    · simp [predict_example, h]
    · simp only [predict_example, if_neg h]
      exact memmLoop_length M _ _
  · intro i hi
    have hne : ¬((M.extract_example_features ex).length = 0) := by omega
    simp only [predict_example, if_neg hne]
    exact memmLoop_get M _ M.START_TAG i hi

/-- A handler that mutates nothing (the tests register handlers returning None). -/
def idHandler : MWState → MWState := fun s => s

/-- Fixture rule: domain only (test fixture dm). -/
def ruleDomain : Rule := ⟨"domain", ⟨some "domain", none, none, none⟩, idHandler, 1, 0⟩

/-- Fixture rule: intent only. -/
def ruleIntent : Rule := ⟨"intent", ⟨none, some "intent", none, none⟩, idHandler, 1, 1⟩

/-- Fixture rule: domain and intent. -/
def ruleDomainIntent : Rule :=
  ⟨"domain_intent", ⟨some "domain", some "intent", none, none⟩, idHandler, 2, 2⟩

/-- Fixture rule: intent with required entity_1. -/
def ruleIntentEntity1 : Rule :=
  ⟨"intent_entity_1", ⟨none, some "intent", some "entity_1", none⟩, idHandler, 3, 3⟩

/-- Fixture rule: intent with required entity_2. -/
def ruleIntentEntity2 : Rule :=
  ⟨"intent_entity_2", ⟨none, some "intent", some "entity_2", none⟩, idHandler, 3, 4⟩

/-- Fixture rule: intent with three required entity types. -/
def ruleIntentEntities : Rule :=
  ⟨"intent_entities",
   ⟨none, some "intent", none, some ["entity_1", "entity_2", "entity_3"]⟩, idHandler, 7, 5⟩

/-- Fixture rule: the no-condition default. -/
def ruleDefault : Rule := ⟨"default", emptyCond, idHandler, 0, 6⟩

/-- The dialogue manager of the test fixture, rules in registration order. -/
def dmFixture : DialogueManager :=
  ⟨[ruleDomain, ruleIntent, ruleDomainIntent, ruleIntentEntity1, ruleIntentEntity2,
    ruleIntentEntities, ruleDefault], []⟩

/-- Context of test_domain_intent: domain and intent both match, no entities. -/
def ctxDomainIntent : Context := ⟨"domain", "intent", [], []⟩

/-- Context of test_intent_entity_tiebreak: entity_1 and entity_2 present. -/
def ctxTie : Context :=
  ⟨"domain", "intent", [⟨"entity_1", ""⟩, ⟨"entity_2", ""⟩], []⟩

/-- Context of test_default: nothing matches but the default. -/
def ctxOther : Context := ⟨"other", "other", [], []⟩

/-- A fresh, empty response. -/
def respEmpty : Response := ⟨none, []⟩

/-- The fixture equals the result of registering its rules through the API in order. -/
theorem dmFixture_registered :
    ((((((addDialogueRule ⟨[], []⟩ "domain" idHandler
        ⟨some "domain", none, none, none⟩).bind
      (fun d => addDialogueRule d "intent" idHandler
        ⟨none, some "intent", none, none⟩)).bind
      (fun d => addDialogueRule d "domain_intent" idHandler
        ⟨some "domain", some "intent", none, none⟩)).bind
      (fun d => addDialogueRule d "intent_entity_1" idHandler
        ⟨none, some "intent", some "entity_1", none⟩)).bind
      (fun d => addDialogueRule d "intent_entity_2" idHandler
        ⟨none, some "intent", some "entity_2", none⟩)).bind
      (fun d => addDialogueRule d "intent_entities" idHandler
        ⟨none, some "intent", none, some ["entity_1", "entity_2", "entity_3"]⟩)).bind
      (fun d => addDialogueRule d "default" idHandler emptyCond) =
      Except.ok dmFixture := rfl

/-- C1 witness: on the fixture, the domain-and-intent context selects domain_intent,
which attains the maximal specificity among the satisfied rules. -/
theorem claim1_witness :
    select dmFixture.rules ctxDomainIntent = Except.ok ruleDomainIntent ∧
    (∀ x ∈ dmFixture.rules, condMatches x.conds ctxDomainIntent = true →
      specificity x.conds ≤ specificity ruleDomainIntent.conds) :=
  ⟨rfl, (claim1_select_max_specificity dmFixture ctxDomainIntent respEmpty
    ruleDomainIntent (by unfold WellFormed; decide) rfl).2.2.2.1⟩

/-- C2 witness: intent_entity_1 and intent_entity_2 tie at specificity 3 on the
tiebreak context and the earlier-registered intent_entity_1 is selected. -/
theorem claim2_witness :
    select dmFixture.rules ctxTie = Except.ok ruleIntentEntity1 ∧
    specificity ruleIntentEntity2.conds = specificity ruleIntentEntity1.conds ∧
    ruleIntentEntity1.index ≤ ruleIntentEntity2.index :=
  ⟨rfl, by decide,
   claim2_tiebreak dmFixture ctxTie ruleIntentEntity1 (by unfold WellFormed; decide) rfl
     ruleIntentEntity2 (by simp [dmFixture]) (by decide) (by decide)⟩

/-- C3 witness: on the fixture and a context matching no conditioned rule, dispatch
succeeds and selects the default rule. -/
theorem claim3_witness :
    select dmFixture.rules ctxOther = Except.ok ruleDefault ∧
    (∃ resp', applyHandler dmFixture ctxOther respEmpty none = Except.ok resp') := by
  have h := claim3_default_rule dmFixture ctxOther respEmpty ruleDefault
    (by simp [dmFixture]) rfl
  refine ⟨h.2.2.2.2 ?_, h.2.2.2.1⟩
  intro x hx hmx
  simp only [dmFixture, List.mem_cons, List.not_mem_nil, or_false] at hx
  rcases hx with rfl | rfl | rfl | rfl | rfl | rfl | rfl
  · exact absurd hmx (by decide)
  · exact absurd hmx (by decide)
  · exact absurd hmx (by decide)
  · exact absurd hmx (by decide)
  · exact absurd hmx (by decide)
  · exact absurd hmx (by decide)
  · rfl

/-- C4 witness: with target intent_entity_2 on a context that would otherwise select
domain_intent, dispatch returns intent_entity_2 as the dialogue state. -/
theorem claim4_witness :
    ∃ resp', applyHandler dmFixture ctxDomainIntent respEmpty (some "intent_entity_2") =
      Except.ok resp' ∧ resp'.dialogue_state = some "intent_entity_2" :=
  (claim4_target dmFixture ctxDomainIntent respEmpty "intent_entity_2" ruleIntentEntity2
    rfl (by intro m hm; simp [dmFixture] at hm) (fun s => rfl)).2.2

/-- A pre-stage middleware that records itself in the context bag and continues. -/
def mwTagPre : Middleware MWState :=
  fun s k =>
    k (⟨(s.1).domain, (s.1).intent, (s.1).entities, (s.1).bag ++ [("seen", "pre")]⟩, s.2)

/-- A middleware that declines to call its continuation. -/
def mwStop : Middleware MWState := fun s _ => s

/-- A post-stage middleware that would overwrite dialogue_state if it ever ran. -/
def mwClobber : Middleware MWState := fun s k => k (s.1, ⟨some "clobbered", (s.2).fields⟩)

/-- A manager with a default rule and a short-circuiting middleware chain. -/
def dmShort : DialogueManager := ⟨[ruleDefault], [mwTagPre, mwStop, mwClobber]⟩

/-- C7 witness: with mwStop in the chain, dispatch still returns a response whose
dialogue_state is the selected rule's name, and the post stage and terminal handler
are irrelevant to the pipeline result. -/
theorem claim7_witness :
    (∃ resp', applyHandler dmShort ctxOther respEmpty none = Except.ok resp' ∧
      resp'.dialogue_state = some "default") ∧
    invoke ([mwTagPre] ++ mwStop :: [mwClobber]) st0 (fun s => s) =
      invoke ([mwTagPre] ++ mwStop :: []) st0 (fun x => x) := by
  have h := claim7_short_circuit mwStop (fun s k k' => rfl) [mwTagPre] [mwClobber]
    (by intro mw hmw
        simp only [List.mem_singleton] at hmw
        subst hmw
        intro s k hk
        exact hk _)
    (fun s k hk => rfl)
    dmShort ctxOther respEmpty ruleDefault rfl rfl
  exact ⟨h.2, h.1 [] (fun s => s) (fun x => x) st0⟩

/-- C8 witness: a manager with only the domain rule and a context matching nothing
surfaces the no-match error. -/
theorem claim8_witness :
    applyHandler ⟨[ruleDomain], []⟩ ctxOther respEmpty none =
      Except.error DialogueError.noMatch :=
  claim8_no_match ⟨[ruleDomain], []⟩ ctxOther respEmpty
    (by intro x hx
        have hx' : x ∈ [ruleDomain] := hx
        simp only [List.mem_singleton] at hx'
        subst hx'
        decide)

/-- C9 witness: re-registering the name domain on the fixture fails. -/
theorem claim9_witness :
    ∃ e, addDialogueRule dmFixture "domain" idHandler emptyCond = Except.error e :=
  (claim9_registration dmFixture "domain" idHandler emptyCond).1.mpr
    (Or.inl ⟨ruleDomain, by simp [dmFixture], rfl⟩)

/-- A concrete MEMM over naturals: two feature segments per example, prev-tag folded
into the features additively, classification modulo 7, start tag 3. -/
def memmFixture : MemmModel Nat Nat Nat :=
  ⟨fun n => [n, n + 1], fun f t => f + 10 * t, fun f => f % 7, 3⟩

/-- C10 witness: on the concrete model and example 5, the second predicted tag is the
classifier's output on the second segment augmented with the first predicted tag. -/
theorem claim10_witness :
    (predict_example memmFixture 5).get? 1 =
      some (memmFixture.predict (memmFixture.set_prev_tag
        ((memmFixture.extract_example_features 5).get ⟨1, by decide⟩)
        (prevTagAt (predict_example memmFixture 5) memmFixture.START_TAG 1))) :=
  (claim10_memm memmFixture 5).2.2 1 (by decide)

end MindMeld
